import Mathlib

/-!
Verification of the core of `parse_gedcom.py`: a line-oriented GEDCOM lexer,
construction of a bidirectional parent/child person graph, and the
relationship-discovery engine (ancestor/descendant closures, MRCA detection,
ancestor-line enumeration).

The shallow embedding below follows the Python source closely:
  * mutable `Record.sub_recs` lists are replaced by a functional
    "open frame" stack in the lexer (a record receives its sub-records when
    it is closed, which happens in the same order as the Python appends);
  * Python's implicit `None` return values become `Option`;
  * Python `set`s of `Person` objects become `Finset (Option String)` of
    person identifiers (identifiers are unique, so object identity and
    identifier equality coincide);
  * the unbounded recursion / unbounded `while` loops of the traversal
    functions are given explicit fuel; `none` means the computation did
    not complete within the given fuel (for every fuel value).
-/

/-- Person keys: `rec_id` of the defining INDI record (may be `None` in
Python, hence `Option String`). -/
abbrev PId := Option String

/-! ### String helpers (modelling Python `str.split`, `int`, `str.join`,
`str.startswith`, `str.replace`) -/

/-- Accumulate whitespace-separated words of a character list; the first
argument is the reversed current word.  Models Python `line.split()`. -/
def wordsAux : List Char → List Char → List String
  | cur, [] => if cur.isEmpty then [] else [String.mk cur.reverse]
  | cur, c :: cs =>
    if c.isWhitespace then
      if cur.isEmpty then wordsAux [] cs
      else String.mk cur.reverse :: wordsAux [] cs
    else wordsAux (c :: cur) cs

/-- Python `line.split()`: whitespace-separated tokens, empties dropped. -/
def tokens (line : String) : List String := wordsAux [] line.data

/-- Python `" ".join(words)`. -/
def joinWords : List String → String
  | [] => ""
  | [w] => w
  | w :: ws => w ++ " " ++ joinWords ws

def digitVal (c : Char) : Option Nat :=
  if c.isDigit then some (c.toNat - 48) else none

def natOfDigits : Nat → List Char → Option Nat
  | acc, [] => some acc
  | acc, c :: cs =>
    match digitVal c with
    | none => none
    | some d => natOfDigits (acc * 10 + d) cs

/-- Python `int(tok)` restricted to a non-negative decimal literal
(the only form occurring in level fields of well-formed GEDCOM). -/
def natOfToken (s : String) : Option Nat :=
  match s.data with
  | [] => none
  | c :: cs => natOfDigits 0 (c :: cs)

/-- Python `tok.startswith("@")`. -/
def startsWithAmp (s : String) : Bool :=
  match s.data with
  | [] => false
  | c :: _ => c == '@'

/-- Python `s.replace("/", "")`. -/
def replaceSlash (s : String) : String :=
  String.mk (s.data.filter (fun c => c != '/'))

/-! ### Records (`class Record`) -/

/-- One parsed GEDCOM line plus its nested lines.
`rec_id` is the optional bracketed cross-reference identifier, `rec_type`
the tag (INDI, FAM, NAME, ...), `data` the rest of the line. -/
inductive Record where
  | mk (rec_id : Option String) (rec_type : String) (data : String)
       (sub_recs : List Record)

def Record.rec_id : Record → Option String
  | .mk i _ _ _ => i

def Record.rec_type : Record → String
  | .mk _ t _ _ => t

def Record.data : Record → String
  | .mk _ _ d _ => d

def Record.sub_recs : Record → List Record
  | .mk _ _ _ s => s

/-- `Record.GetFields`: descend into the first sub-record whose tag matches
the head of the field path; on the last field return that record's payload.
Python returns `None` implicitly when no sub-record matches; the
`fields = []` case is an `assert` failure in Python and unreachable here
(every call site passes a non-empty path). -/
def Record.GetFields : Record → List String → Option String
  | _, [] => none
  | r, f :: fs =>
    match r.sub_recs.find? (fun q => decide (q.rec_type = f)) with
    | none => none
    | some q =>
      match fs with
      | [] => some q.data
      | _ :: _ => Record.GetFields q fs

/-- Spec-side characterization of path lookup (section 4.2 of the design):
descend the children matching each tag in turn, returning the final matched
record, or `none` when some segment of the path is unmatched.  Stated
separately from `Record.GetFields` so their agreement is a theorem. -/
def pathDescend : Record → List String → Option Record
  | r, [] => some r
  | r, f :: fs =>
    match r.sub_recs.find? (fun q => decide (q.rec_type = f)) with
    | none => none
    | some q => pathDescend q fs

/-- `Person.name`: NAME payload with the surname-delimiting slashes removed.
(Python crashes on a missing NAME; the claims only evaluate it on records
that have one, so the lookup result is propagated as an `Option`.) -/
def personName (r : Record) : Option String :=
  (r.GetFields ["NAME"]).map replaceSlash

/-- `Person.birthdate`. -/
def birthdate (r : Record) : Option String :=
  r.GetFields ["BIRT", "DATE"]

/-- `Person.deathdate`. -/
def deathdate (r : Record) : Option String :=
  r.GetFields ["DEAT", "DATE"]

/-! ### The lexer (`lex`)

Python keeps a chain `curr_for` of the most recent record at each depth
(`curr_for[0]` is a synthetic root) and mutates `parent.sub_recs`.  Here the
chain is a stack of still-open `Frame`s; a frame receives a child record
when that child is *closed* (children close in their creation order, so the
resulting `sub_recs` lists are in the same order as the Python appends).
A line at level `L` requires `L < chain.length` — Python raises `IndexError`
otherwise — after which the chain is truncated to `L+1` entries (closing the
deeper frames) and the new record is pushed as an open frame. -/

structure Frame where
  fid : Option String
  ftype : String
  fdata : String
  fsubs : List Record

/-- Close the stack `f :: deeper` (each frame the open child of the one
before it), producing the record for `f` with all descendants attached. -/
def collapse : Frame → List Frame → Record
  | f, [] => Record.mk f.fid f.ftype f.fdata f.fsubs
  | f, g :: rest => Record.mk f.fid f.ftype f.fdata (f.fsubs ++ [collapse g rest])

/-- `curr_for[level]`, truncation `curr_for[level+1:] = [this_rec]`, and the
`parent.sub_recs.append` of the Python, in one functional step.  `none`
models the `IndexError` raised when `level` exceeds the chain length. -/
def attachAt : List Frame → Nat → Frame → Option (List Frame)
  | [], _, _ => none
  | f :: rest, 0, fnew =>
    match rest with
    | [] => some (f :: [fnew])
    | g :: rs => some ({ f with fsubs := f.fsubs ++ [collapse g rs] } :: [fnew])
  | f :: rest, Nat.succ l, fnew =>
    match attachAt rest l fnew with
    | none => none
    | some rest' => some (f :: rest')

/-- Process one line's token list.  `none` models the Python exceptions:
`IndexError` on `fields[1]` (fewer than two tokens), `ValueError` on
`int(fields[0])`, `IndexError` on `fields[2]` (cross-reference line with no
type token), and `IndexError` on `curr_for[level]` (level skip). -/
def lexStepT (c : List Frame) : List String → Option (List Frame)
  | [] => some c
  | [_] => none
  | t0 :: t1 :: rest2 =>
    match natOfToken t0 with
    | none => none
    | some level =>
      if startsWithAmp t1 then
        match rest2 with
        | [] => none
        | t2 :: rest3 => attachAt c level ⟨some t1, t2, joinWords rest3, []⟩
      else
        attachAt c level ⟨none, t1, joinWords rest2, []⟩

def lexStep (c : List Frame) (line : String) : Option (List Frame) :=
  lexStepT c (tokens line)

/-- The synthetic root `Record(None, None, None)` at depth `-1` (its type
and data fields are never inspected). -/
def lexInit : List Frame := [⟨none, "", "", []⟩]

/-- `lex`: convert the lines of a .ged file into the list of top-level
records (the sub-records of the synthetic root). -/
def lex (lines : List String) : Option (List Record) :=
  match lines.foldlM lexStep lexInit with
  | none => none
  | some c =>
    match c with
    | [] => some []
    | f :: rest => some (collapse f rest).sub_recs

/-! Well-formedness of an input, mirroring the lexer contract of section 4.1
of the design: each non-blank line tokenizes into at least a level and a
tag (a cross-reference line additionally needs a type token), the level is
a decimal literal, and the level never skips more than one depth past the
current deepest chain entry.  `wfLineT maxA toks` returns the next maximal
admissible level. -/

def wfLineT (maxA : Nat) : List String → Option Nat
  | [] => some maxA
  | [_] => none
  | t0 :: t1 :: rest2 =>
    match natOfToken t0 with
    | none => none
    | some level =>
      if level ≤ maxA then
        if startsWithAmp t1 then
          match rest2 with
          | [] => none
          | _ :: _ => some (level + 1)
        else some (level + 1)
      else none

def wfGo : Nat → List String → Bool
  | _, [] => true
  | maxA, l :: ls =>
    match wfLineT maxA (tokens l) with
    | none => false
    | some maxA2 => wfGo maxA2 ls

/-- A line sequence is well-formed when every line satisfies the lexer
contract under the evolving depth bound (initially only level 0 is legal). -/
def wellFormedB (lines : List String) : Bool := wfGo 0 lines

/-! ### The graph builder (`parse`)

Python's `Person` objects carry a `record` plus mutable `parents` and
`children` lists of `Person` references.  Identifiers are unique (the
duplicate `assert` in pass 1), so persons are represented by their `rec_id`
key and the two link lists become finite-support functions `PId → List PId`
updated functionally during pass 2. -/

structure Graph where
  people : List (PId × Record)
  parents : PId → List PId
  children : PId → List PId

/-- Pass 1: collect every INDI record into the person map, failing on a
duplicate identifier (`assert record.rec_id not in people`). -/
def collectPeople : List (PId × Record) → List Record → Option (List (PId × Record))
  | acc, [] => some acc
  | acc, r :: rs =>
    if r.rec_type = "INDI" then
      if (acc.map Prod.fst).contains r.rec_id then none
      else collectPeople (acc ++ [(r.rec_id, r)]) rs
    else collectPeople acc rs

/-- The pair of link maps under construction: `(parents, children)`. -/
abbrev LinkSt := (PId → List PId) × (PId → List PId)

/-- `child.parents.append(parent); parent.children.append(child)`. -/
def addLink (st : LinkSt) (parentId childId : String) : LinkSt :=
  (fun k => if k = some childId then st.1 k ++ [some parentId] else st.1 k,
   fun k => if k = some parentId then st.2 k ++ [some childId] else st.2 k)

/-- Identifiers listed by the HUSB/WIFE sub-records of a FAM record. -/
def famParents (r : Record) : List String :=
  (r.sub_recs.filter (fun s => decide (s.rec_type = "HUSB" ∨ s.rec_type = "WIFE"))).map
    Record.data

/-- Identifiers listed by the CHIL sub-records of a FAM record. -/
def famChildren (r : Record) : List String :=
  (r.sub_recs.filter (fun s => decide (s.rec_type = "CHIL"))).map Record.data

/-- Link one child of a family unit to every listed parent.  `none` models
the Python `KeyError` when an identifier is not in the person map. -/
def linkChild (keys : List PId) (parentIds : List String) (st : LinkSt)
    (childId : String) : Option LinkSt :=
  if keys.contains (some childId) then
    parentIds.foldlM
      (fun st2 parentId =>
        if keys.contains (some parentId) then some (addLink st2 parentId childId)
        else none)
      st
  else none

/-- Pass 2, one record: for a FAM record, add mutual links for every
(parent, child) identifier pair of the family unit. -/
def linkFam (keys : List PId) (st : LinkSt) (r : Record) : Option LinkSt :=
  if r.rec_type = "FAM" then
    (famChildren r).foldlM (linkChild keys (famParents r)) st
  else some st

/-- `parse`: convert the flat record list into the person graph. -/
def parse (records : List Record) : Option Graph := do
  let ppl ← collectPeople [] records
  let st ← records.foldlM (linkFam (ppl.map Prod.fst)) (fun _ => [], fun _ => [])
  return { people := ppl, parents := st.1, children := st.2 }

/-! ### The relationship engine

All Python `set`s of persons become `Finset PId`.  The unbounded recursions
(`get_ancestors`, `get_descendants`) and the unbounded BFS loop
(`get_ancestor_lines`) take explicit fuel; `none` means the computation did
not finish within the fuel. -/

/-- Sequential `Option`-valued map, modelling the Python `for` loops that
recurse on each parent/child in order. -/
def mapO {α β : Type} (f : α → Option β) : List α → Option (List β)
  | [] => some []
  | x :: xs =>
    match f x with
    | none => none
    | some y =>
      match mapO f xs with
      | none => none
      | some ys => some (y :: ys)

/-- `get_ancestors`: the person plus the union of the ancestor sets of its
parents (naive recursion, as in the source). -/
def get_ancestors (g : Graph) : Nat → PId → Option (Finset PId)
  | 0, _ => none
  | n + 1, p =>
    match mapO (fun q => get_ancestors g n q) (g.parents p) with
    | none => none
    | some sets => some (sets.foldl (fun acc t => acc ∪ t) {p})

/-- `get_descendants`: symmetric over `children`. -/
def get_descendants (g : Graph) : Nat → PId → Option (Finset PId)
  | 0, _ => none
  | n + 1, p =>
    match mapO (fun q => get_descendants g n q) (g.children p) with
    | none => none
    | some sets => some (sets.foldl (fun acc t => acc ∪ t) {p})

/-- `find_common_ancestors`: `a1.intersection(a2)`. -/
def find_common_ancestors (g : Graph) (n : Nat) (p1 p2 : PId) : Option (Finset PId) :=
  match get_ancestors g n p1 with
  | none => none
  | some a1 =>
    match get_ancestors g n p2 with
    | none => none
    | some a2 => some (a1 ∩ a2)

/-- `find_most_recent`: common ancestors none of whose children are also
common ancestors. -/
def find_most_recent (g : Graph) (common : Finset PId) : Finset PId :=
  common.filter (fun p => common ∩ (g.children p).toFinset = ∅)

/-- `find_mrca`. -/
def find_mrca (g : Graph) (n : Nat) (p1 p2 : PId) : Option (Finset PId) :=
  (find_common_ancestors g n p1 p2).map (find_most_recent g)

/-- The BFS loop of `get_ancestor_lines`: pop `(person, line)` from the
front of the queue, record the pop, and push `(parent, line + [parent])`
for every parent.  The returned list is the sequence of pops in order;
there is no visited set, exactly as in the source. -/
def alBfs (g : Graph) :
    Nat → List (PId × List PId) → List (PId × List PId) → Option (List (PId × List PId))
  | 0, _, _ => none
  | _ + 1, [], acc => some acc
  | n + 1, (p, line) :: rest, acc =>
    alBfs g n (rest ++ (g.parents p).map (fun q => (q, line ++ [q])))
      (acc ++ [(p, line)])

/-- `get_ancestor_lines`, started from `(start_person, [start_person])`. -/
def get_ancestor_lines (g : Graph) (n : Nat) (p : PId) :
    Option (List (PId × List PId)) :=
  alBfs g n [(p, [p])] []

/-- `ancestor_lines[a]`: the lines recorded for ancestor `a`, in pop order
(the `defaultdict(list)` of the source, read back per key). -/
def linesOf (pops : List (PId × List PId)) (a : PId) : List (List PId) :=
  (pops.filter (fun x => decide (x.1 = a))).map (fun x => x.2)

/-- The key set of the `ancestor_lines` dict: every popped person. -/
def ancKeys (pops : List (PId × List PId)) : Finset PId :=
  (pops.map (fun x => x.1)).toFinset

/-- `find_relationship`, decomposed: the MRCA set over the intersection of
the two key sets. -/
def find_relationship_mrcas (g : Graph) (n : Nat) (p1 p2 : PId) : Option (Finset PId) :=
  match get_ancestor_lines g n p1 with
  | none => none
  | some pops1 =>
    match get_ancestor_lines g n p2 with
    | none => none
    | some pops2 => some (find_most_recent g (ancKeys pops1 ∩ ancKeys pops2))

/-- `find_relationship`: one pair `(lines1[mrca], lines2[mrca])` per MRCA.
The Python builds a list by iterating a set, so the collection of emitted
pairs is modelled as a `Multiset`. -/
def find_relationship (g : Graph) (n : Nat) (p1 p2 : PId) :
    Option (Multiset (List (List PId) × List (List PId))) :=
  match get_ancestor_lines g n p1 with
  | none => none
  | some pops1 =>
    match get_ancestor_lines g n p2 with
    | none => none
    | some pops2 =>
      some ((find_most_recent g (ancKeys pops1 ∩ ancKeys pops2)).val.map
        (fun anc => (linesOf pops1 anc, linesOf pops2 anc)))

/-- `find_roots`: members of the set whose parents do not meet the set. -/
def find_roots (g : Graph) (people : Finset PId) : Finset PId :=
  people.filter (fun p => (g.parents p).toFinset ∩ people = ∅)

/-! ### Concrete inputs used by the claims -/

/-- The graph with no people and no links. -/
def nullGraph : Graph := ⟨[], fun _ => [], fun _ => []⟩

/-- The round-trip input of the spec (section 8). -/
def c2lines : List String := ["0 @I1@ INDI", "1 NAME John /Doe/"]

def c2graph : Option Graph := (lex c2lines).bind parse

/-- A pedigree-collapse diamond: `D`'s parents are `A` and `B`, and `A` and
`B` share the single parent `X`. -/
def diamondLines : List String :=
  ["0 @D@ INDI", "0 @A@ INDI", "0 @B@ INDI", "0 @X@ INDI",
   "0 @F1@ FAM", "1 HUSB @A@", "1 WIFE @B@", "1 CHIL @D@",
   "0 @F2@ FAM", "1 HUSB @X@", "1 CHIL @A@", "1 CHIL @B@"]

def diamondG : Graph := ((lex diamondLines).bind parse).getD nullGraph

/-- The pops of the diamond ancestor-line BFS from `D` (fuel 9 suffices). -/
def diamondPops : List (PId × List PId) :=
  (get_ancestor_lines diamondG 9 (some "@D@")).getD []

/-- A malformed family making `@I1@` its own parent: a parent/child cycle. -/
def cyclicLines : List String :=
  ["0 @I1@ INDI", "0 @F1@ FAM", "1 HUSB @I1@", "1 CHIL @I1@"]

def cyclicG : Graph := ((lex cyclicLines).bind parse).getD nullGraph

/-! ### Helper lemmas -/

theorem GetFields_eq_pathDescend (r : Record) (f : String) (fs : List String) :
    Record.GetFields r (f :: fs) = (pathDescend r (f :: fs)).map Record.data := by
  induction fs generalizing r f with
  | nil =>
    simp only [Record.GetFields, pathDescend]
    cases r.sub_recs.find? (fun q => decide (q.rec_type = f)) <;>
      simp [pathDescend]
  | cons f' fs' ih =>
    simp only [Record.GetFields, pathDescend]
    cases r.sub_recs.find? (fun q => decide (q.rec_type = f)) with
    | none => simp
    | some q => simpa [Record.GetFields, pathDescend] using ih q f'

theorem mem_find_most_recent (g : Graph) (common : Finset PId) (a : PId) :
    a ∈ find_most_recent g common ↔
      a ∈ common ∧ ∀ c ∈ g.children a, c ∉ common := by
  simp only [find_most_recent, Finset.mem_filter, and_congr_right_iff]
  intro _
  rw [Finset.eq_empty_iff_forall_not_mem]
  constructor
  · intro h c hc hcS
    exact h c (Finset.mem_inter.mpr ⟨hcS, List.mem_toFinset.mpr hc⟩)
  · intro h c hc
    rcases Finset.mem_inter.mp hc with ⟨hcS, hcl⟩
    exact h c (List.mem_toFinset.mp hcl) hcS

/-- `seg g q s a`: the list `q :: s` is a chain of successive parents in
`g` ending at `a`. -/
def seg (g : Graph) : PId → List PId → PId → Prop
  | q, [], a => a = q
  | q, r :: s, a => r ∈ g.parents q ∧ seg g r s a

/-- `l` is a directed parent-path from `p` to `a` in `g`. -/
def isAncestorPath (g : Graph) (p a : PId) (l : List PId) : Prop :=
  ∃ s, l = p :: s ∧ seg g p s a

theorem alBfs_step_iff (g : Graph) (p : PId) (line : List PId)
    (rest : List (PId × List PId)) (acc : List (PId × List PId))
    (x : PId × List PId) :
    (x ∈ acc ++ [(p, line)] ∨
      ∃ q l₁ s, (q, l₁) ∈ rest ++ (g.parents p).map (fun r => (r, line ++ [r])) ∧
        x.2 = l₁ ++ s ∧ seg g q s x.1) ↔
    (x ∈ acc ∨ ∃ q l₁ s, (q, l₁) ∈ (p, line) :: rest ∧ x.2 = l₁ ++ s ∧ seg g q s x.1) := by
  obtain ⟨a, l₂⟩ := x
  constructor
  · rintro (hx | ⟨q, l₁, s, hmem, hl, hseg⟩)
    · rcases List.mem_append.mp hx with hx | hx
      · exact Or.inl hx
      · rcases List.mem_singleton.mp hx with h
        have ha : a = p := congrArg Prod.fst h
        have hl : l₂ = line := congrArg Prod.snd h
        refine Or.inr ⟨p, line, [], List.mem_cons_self _ _, ?_, ?_⟩
        · simpa using hl
        · simpa [seg] using ha
    · rcases List.mem_append.mp hmem with hmem | hmem
      · exact Or.inr ⟨q, l₁, s, List.mem_cons_of_mem _ hmem, hl, hseg⟩
      · rcases List.mem_map.mp hmem with ⟨r, hr, heq⟩
        have hq : q = r := (congrArg Prod.fst heq).symm
        have hl₁ : l₁ = line ++ [r] := (congrArg Prod.snd heq).symm
        subst hq hl₁
        refine Or.inr ⟨p, line, q :: s, List.mem_cons_self _ _, ?_, ?_⟩
        · simpa [List.append_assoc] using hl
        · exact ⟨hr, hseg⟩
  · rintro (hx | ⟨q, l₁, s, hmem, hl, hseg⟩)
    · exact Or.inl (List.mem_append.mpr (Or.inl hx))
    · rcases List.mem_cons.mp hmem with h | hmem
      · have hq : q = p := congrArg Prod.fst h
        have hl₁ : l₁ = line := congrArg Prod.snd h
        subst hq hl₁
        cases s with
        | nil =>
          refine Or.inl (List.mem_append.mpr (Or.inr ?_))
          have ha : a = q := hseg
          simp only [List.append_nil] at hl
          simp [ha, hl]
        | cons r s' =>
          rcases hseg with ⟨hr, hseg'⟩
          refine Or.inr ⟨r, l₁ ++ [r], s', ?_, ?_, hseg'⟩
          · exact List.mem_append.mpr (Or.inr (List.mem_map.mpr ⟨r, hr, rfl⟩))
          · simpa [List.append_assoc] using hl
      · exact Or.inr ⟨q, l₁, s, List.mem_append.mpr (Or.inl hmem), hl, hseg⟩

theorem alBfs_mem (g : Graph) :
    ∀ (n : Nat) (todo acc pops : List (PId × List PId)),
      alBfs g n todo acc = some pops →
      ∀ x : PId × List PId,
        x ∈ pops ↔ x ∈ acc ∨
          ∃ q l₁ s, (q, l₁) ∈ todo ∧ x.2 = l₁ ++ s ∧ seg g q s x.1 := by
  intro n
  induction n with
  | zero =>
    intro todo acc pops h
    exact Option.noConfusion h
  | succ n ih =>
    intro todo acc pops h x
    match todo with
    | [] =>
      have hpops : acc = pops := Option.some.inj h
      subst hpops
      simp
    | (p, line) :: rest =>
      have h' : alBfs g n
          (rest ++ (g.parents p).map (fun q => (q, line ++ [q])))
          (acc ++ [(p, line)]) = some pops := h
      rw [ih _ _ _ h' x]
      exact alBfs_step_iff g p line rest acc x

theorem get_ancestor_lines_mem (g : Graph) (n : Nat) (p : PId)
    (pops : List (PId × List PId)) (h : get_ancestor_lines g n p = some pops)
    (a : PId) (l : List PId) :
    (a, l) ∈ pops ↔ isAncestorPath g p a l := by
  rw [alBfs_mem g n _ _ pops h (a, l)]
  simp only [List.not_mem_nil, false_or, List.mem_singleton, Prod.mk.injEq]
  constructor
  · rintro ⟨q, l₁, s, ⟨hq, hl₁⟩, hl, hseg⟩
    subst hq hl₁
    exact ⟨s, by simpa using hl, hseg⟩
  · rintro ⟨s, hl, hseg⟩
    exact ⟨p, [p], s, ⟨rfl, rfl⟩, by simpa using hl, hseg⟩

theorem mem_linesOf (pops : List (PId × List PId)) (a : PId) (l : List PId) :
    l ∈ linesOf pops a ↔ (a, l) ∈ pops := by
  simp only [linesOf, List.mem_map, List.mem_filter, decide_eq_true_eq]
  constructor
  · rintro ⟨⟨b, l'⟩, ⟨hmem, hb⟩, hl⟩
    simp only at hb hl
    subst hb hl
    exact hmem
  · intro h
    exact ⟨(a, l), ⟨h, rfl⟩, rfl⟩

theorem mapO_some_mem {α β : Type} (f : α → Option β) :
    ∀ (l : List α) (ys : List β), mapO f l = some ys →
      (∀ y ∈ ys, ∃ x ∈ l, f x = some y) ∧ (∀ x ∈ l, ∃ y ∈ ys, f x = some y) := by
  intro l
  induction l with
  | nil =>
    intro ys h
    have : ([] : List β) = ys := Option.some.inj h
    subst this
    simp
  | cons x xs ih =>
    intro ys h
    simp only [mapO] at h
    cases hx : f x with
    | none => rw [hx] at h; exact Option.noConfusion h
    | some y =>
      rw [hx] at h
      cases hxs : mapO f xs with
      | none => rw [hxs] at h; exact Option.noConfusion h
      | some ys' =>
        rw [hxs] at h
        have hys : y :: ys' = ys := Option.some.inj h
        subst hys
        rcases ih ys' hxs with ⟨fwd, bwd⟩
        constructor
        · intro z hz
          rcases List.mem_cons.mp hz with hz | hz
          · exact ⟨x, List.mem_cons_self _ _, by rw [hx, hz]⟩
          · rcases fwd z hz with ⟨w, hw, hfw⟩
            exact ⟨w, List.mem_cons_of_mem _ hw, hfw⟩
        · intro w hw
          rcases List.mem_cons.mp hw with hw | hw
          · exact ⟨y, List.mem_cons_self _ _, by rw [hw, hx]⟩
          · rcases bwd w hw with ⟨z, hz, hfz⟩
            exact ⟨z, List.mem_cons_of_mem _ hz, hfz⟩

theorem mem_foldl_union (a : PId) :
    ∀ (sets : List (Finset PId)) (init : Finset PId),
      a ∈ sets.foldl (fun acc t => acc ∪ t) init ↔ a ∈ init ∨ ∃ t ∈ sets, a ∈ t := by
  intro sets
  induction sets with
  | nil => intro init; simp
  | cons t ts ih =>
    intro init
    simp only [List.foldl_cons, ih (init ∪ t), Finset.mem_union, List.mem_cons]
    constructor
    · rintro ((h | h) | ⟨u, hu, hau⟩)
      · exact Or.inl h
      · exact Or.inr ⟨t, Or.inl rfl, h⟩
      · exact Or.inr ⟨u, Or.inr hu, hau⟩
    · rintro (h | ⟨u, hu | hu, hau⟩)
      · exact Or.inl (Or.inl h)
      · exact Or.inl (Or.inr (hu ▸ hau))
      · exact Or.inr ⟨u, hu, hau⟩

theorem get_ancestors_mem (g : Graph) :
    ∀ (n : Nat) (p : PId) (s : Finset PId), get_ancestors g n p = some s →
      ∀ a, a ∈ s ↔ ∃ t, seg g p t a := by
  intro n
  induction n with
  | zero =>
    intro p s h
    exact Option.noConfusion h
  | succ n ih =>
    intro p s h a
    simp only [get_ancestors] at h
    cases hm : mapO (fun q => get_ancestors g n q) (g.parents p) with
    | none => rw [hm] at h; exact Option.noConfusion h
    | some sets =>
      rw [hm] at h
      have hs : sets.foldl (fun acc t => acc ∪ t) {p} = s := Option.some.inj h
      subst hs
      rcases mapO_some_mem _ _ _ hm with ⟨fwd, bwd⟩
      rw [mem_foldl_union a sets {p}]
      constructor
      · rintro (h | ⟨t, ht, hat⟩)
        · exact ⟨[], by simpa [seg] using Finset.mem_singleton.mp h⟩
        · rcases fwd t ht with ⟨q, hq, hfq⟩
          rcases (ih q t hfq a).mp hat with ⟨u, hu⟩
          exact ⟨q :: u, hq, hu⟩
      · rintro ⟨u, hu⟩
        cases u with
        | nil => exact Or.inl (Finset.mem_singleton.mpr hu)
        | cons q u' =>
          rcases hu with ⟨hq, hu'⟩
          rcases bwd q hq with ⟨t, ht, hft⟩
          exact Or.inr ⟨t, ht, (ih q t hft a).mpr ⟨u', hu'⟩⟩

theorem mem_ancKeys (pops : List (PId × List PId)) (a : PId) :
    a ∈ ancKeys pops ↔ ∃ l, (a, l) ∈ pops := by
  simp only [ancKeys, List.mem_toFinset, List.mem_map]
  constructor
  · rintro ⟨⟨b, l⟩, hmem, hb⟩
    simp only at hb
    subst hb
    exact ⟨l, hmem⟩
  · rintro ⟨l, hmem⟩
    exact ⟨(a, l), hmem, rfl⟩

/-- The keys of the ancestor-lines dict and the ancestor closure agree
(both are the persons reachable by a parent-chain). -/
theorem ancKeys_eq_get_ancestors (g : Graph) (n m : Nat) (p : PId)
    (pops : List (PId × List PId)) (s : Finset PId)
    (hl : get_ancestor_lines g n p = some pops)
    (ha : get_ancestors g m p = some s) :
    ancKeys pops = s := by
  ext a
  rw [mem_ancKeys, get_ancestors_mem g m p s ha a]
  constructor
  · rintro ⟨l, hmem⟩
    rcases (get_ancestor_lines_mem g n p pops hl a l).mp hmem with ⟨t, _, hseg⟩
    exact ⟨t, hseg⟩
  · rintro ⟨t, hseg⟩
    exact ⟨p :: t, (get_ancestor_lines_mem g n p pops hl a (p :: t)).mpr ⟨t, rfl, hseg⟩⟩

theorem foldlM_inv {α σ : Type} (P : σ → Prop) (f : σ → α → Option σ)
    (hf : ∀ s a s', P s → f s a = some s' → P s') :
    ∀ (l : List α) (s s' : σ), P s → List.foldlM f s l = some s' → P s' := by
  intro l
  induction l with
  | nil =>
    intro s s' hP h
    simp only [List.foldlM] at h
    exact (Option.some.inj h) ▸ hP
  | cons a as ih =>
    intro s s' hP h
    simp only [List.foldlM] at h
    cases hfa : f s a with
    | none => rw [hfa] at h; exact Option.noConfusion h
    | some s2 =>
      rw [hfa] at h
      exact ih s2 s' (hf s a s2 hP hfa) h

/-- The mirroring invariant of the two link maps. -/
def Mirror (st : LinkSt) : Prop := ∀ p c, p ∈ st.1 c ↔ c ∈ st.2 p

theorem mirror_addLink (st : LinkSt) (parentId childId : String)
    (h : Mirror st) : Mirror (addLink st parentId childId) := by
  intro p c
  simp only [addLink]
  by_cases hc : c = some childId <;> by_cases hp : p = some parentId
  · simp [hc, hp]
  · simpa [hc, hp] using h p (some childId)
  · simpa [hc, hp] using h (some parentId) c
  · simpa [hc, hp] using h p c

theorem mirror_linkChild (keys : List PId) (parentIds : List String)
    (st : LinkSt) (childId : String) (st' : LinkSt)
    (hP : Mirror st) (h : linkChild keys parentIds st childId = some st') :
    Mirror st' := by
  simp only [linkChild] at h
  by_cases hk : keys.contains (some childId)
  · rw [if_pos hk] at h
    refine foldlM_inv Mirror _ ?_ parentIds st st' hP h
    intro s a s' hs hstep
    by_cases hka : keys.contains (some a)
    · rw [if_pos hka] at hstep
      exact (Option.some.inj hstep) ▸ mirror_addLink s a childId hs
    · rw [if_neg hka] at hstep
      exact Option.noConfusion hstep
  · rw [if_neg hk] at h
    exact Option.noConfusion h

theorem mirror_linkFam (keys : List PId) (st : LinkSt) (r : Record)
    (st' : LinkSt) (hP : Mirror st) (h : linkFam keys st r = some st') :
    Mirror st' := by
  simp only [linkFam] at h
  by_cases hr : r.rec_type = "FAM"
  · rw [if_pos hr] at h
    refine foldlM_inv Mirror _ ?_ (famChildren r) st st' hP h
    intro s a s' hs hstep
    exact mirror_linkChild keys (famParents r) s a s' hs hstep
  · rw [if_neg hr] at h
    exact (Option.some.inj h) ▸ hP

theorem parse_mirror (records : List Record) (g : Graph)
    (h : parse records = some g) :
    ∀ p c, p ∈ g.parents c ↔ c ∈ g.children p := by
  simp only [parse, Option.bind_eq_bind, Option.bind] at h
  cases hc : collectPeople [] records with
  | none => rw [hc] at h; exact Option.noConfusion h
  | some ppl =>
    rw [hc] at h
    simp only at h
    cases hst : List.foldlM (linkFam (ppl.map Prod.fst))
        (fun _ => [], fun _ => []) records with
    | none => rw [hst] at h; exact Option.noConfusion h
    | some st =>
      rw [hst] at h
      have hg : g = { people := ppl, parents := st.1, children := st.2 } :=
        (Option.some.inj h).symm
      have hbase : Mirror ((fun _ => [], fun _ => []) : LinkSt) := by
        intro p c; simp
      have hmir : Mirror st :=
        foldlM_inv Mirror _
          (fun s a s' hs hstep => mirror_linkFam _ s a s' hs hstep)
          records _ st hbase hst
      intro p c
      rw [hg]
      exact hmir p c

/-! Lexer well-formedness machinery. -/

theorem attachAt_length :
    ∀ (l : Nat) (c : List Frame) (f : Frame),
      (attachAt c l f).map List.length =
        if l < c.length then some (l + 2) else none := by
  intro l
  induction l with
  | zero =>
    intro c f
    cases c with
    | nil => simp [attachAt]
    | cons g rest => cases rest <;> simp [attachAt]
  | succ l ih =>
    intro c f
    cases c with
    | nil => simp [attachAt]
    | cons g rest =>
      simp only [attachAt]
      cases h : attachAt rest l f with
      | none =>
        have hr := ih rest f
        rw [h] at hr
        by_cases hl : l < rest.length
        · rw [if_pos hl] at hr; exact Option.noConfusion hr
        · simp [h, hl]
      | some r' =>
        have hr := ih rest f
        rw [h] at hr
        by_cases hl : l < rest.length
        · rw [if_pos hl] at hr
          have hlen : r'.length = l + 2 := by simpa using hr
          simp [h, hlen, hl]
        · rw [if_neg hl] at hr; exact Option.noConfusion hr

theorem lexStepT_wfLineT :
    ∀ (toks : List String) (c : List Frame) (maxA : Nat),
      c.length = maxA + 1 →
      (lexStepT c toks).map List.length = (wfLineT maxA toks).map (fun m => m + 1) := by
  intro toks c maxA hlen
  match toks with
  | [] => simp [lexStepT, wfLineT, hlen]
  | [t] => simp [lexStepT, wfLineT]
  | t0 :: t1 :: rest2 =>
    simp only [lexStepT, wfLineT]
    cases natOfToken t0 with
    | none => simp
    | some level =>
      by_cases hL : level ≤ maxA
      · have hlt : level < c.length := by omega
        by_cases hamp : startsWithAmp t1
        · cases rest2 with
          | nil => simp [hamp, hL, attachAt_length, hlt]
          | cons t2 rest3 => simp [hamp, hL, attachAt_length, hlt]
        · simp [hamp, hL, attachAt_length, hlt]
      · have hlt : ¬ level < c.length := by omega
        by_cases hamp : startsWithAmp t1
        · cases rest2 with
          | nil => simp [hamp, hL, attachAt_length, hlt]
          | cons t2 rest3 => simp [hamp, hL, attachAt_length, hlt]
        · simp [hamp, hL, attachAt_length, hlt]

theorem foldl_lex_wf :
    ∀ (lines : List String) (c : List Frame) (maxA : Nat),
      c.length = maxA + 1 →
      (List.foldlM lexStep c lines).isSome = wfGo maxA lines := by
  intro lines
  induction lines with
  | nil => intro c maxA _; simp [List.foldlM, wfGo]
  | cons l ls ih =>
    intro c maxA hlen
    have key := lexStepT_wfLineT (tokens l) c maxA hlen
    simp only [List.foldlM, wfGo, lexStep]
    cases hstep : lexStepT c (tokens l) with
    | none =>
      rw [hstep] at key
      cases hwf : wfLineT maxA (tokens l) with
      | none => simp [hwf]
      | some m2 => rw [hwf] at key; exact Option.noConfusion key
    | some c' =>
      rw [hstep] at key
      cases hwf : wfLineT maxA (tokens l) with
      | none => rw [hwf] at key; exact Option.noConfusion key
      | some m2 =>
        rw [hwf] at key
        have hc' : c'.length = m2 + 1 := by simpa using key
        simpa [hwf] using ih c' m2 hc'

theorem lex_isSome (lines : List String) :
    (lex lines).isSome = wellFormedB lines := by
  have h := foldl_lex_wf lines lexInit 0 (by simp [lexInit])
  simp only [lex, wellFormedB]
  cases hf : List.foldlM lexStep lexInit lines with
  | none => rw [hf] at h; simpa using h
  | some c =>
    rw [hf] at h
    cases c <;> simpa using h

theorem wfGo_false_of_short :
    ∀ (lines : List String) (maxA : Nat),
      (∃ l ∈ lines, tokens l ≠ [] ∧ (tokens l).length < 2) →
      wfGo maxA lines = false := by
  intro lines
  induction lines with
  | nil =>
    intro maxA h
    rcases h with ⟨l, hl, _⟩
    exact absurd hl (List.not_mem_nil l)
  | cons l ls ih =>
    intro maxA h
    rcases h with ⟨l', hl', hne, hlen⟩
    rcases List.mem_cons.mp hl' with rfl | hmem
    · cases htok : tokens l' with
      | nil => exact absurd htok hne
      | cons t rest =>
        cases rest with
        | nil => simp [wfGo, htok, wfLineT]
        | cons t2 r2 =>
          rw [htok] at hlen
          simp only [List.length_cons] at hlen
          omega
    · cases hwf : wfLineT maxA (tokens l) with
      | none => simp [wfGo, hwf]
      | some m2 => simpa [wfGo, hwf] using ih m2 ⟨l', hmem, hne, hlen⟩

/-! Divergence of the traversals on the cyclic graph. -/

theorem cyclicG_parents : cyclicG.parents (some "@I1@") = [some "@I1@"] := by decide

theorem cyclicG_children : cyclicG.children (some "@I1@") = [some "@I1@"] := by decide

theorem get_ancestors_cyclic_none :
    ∀ n, get_ancestors cyclicG n (some "@I1@") = none := by
  intro n
  induction n with
  | zero => rfl
  | succ n ih =>
    simp only [get_ancestors]
    rw [cyclicG_parents]
    simp [mapO, ih]

theorem get_descendants_cyclic_none :
    ∀ n, get_descendants cyclicG n (some "@I1@") = none := by
  intro n
  induction n with
  | zero => rfl
  | succ n ih =>
    simp only [get_descendants]
    rw [cyclicG_children]
    simp [mapO, ih]

theorem alBfs_cyclic_none :
    ∀ (n : Nat) (todo acc : List (PId × List PId)), todo ≠ [] →
      (∀ x ∈ todo, x.1 = some "@I1@") →
      alBfs cyclicG n todo acc = none := by
  intro n
  induction n with
  | zero => intro todo acc _ _; rfl
  | succ n ih =>
    intro todo acc hne hall
    match todo with
    | [] => exact absurd rfl hne
    | (p, line) :: rest =>
      have hp : p = some "@I1@" := hall (p, line) (List.mem_cons_self _ _)
      have hpar : cyclicG.parents p = [some "@I1@"] := by rw [hp]; exact cyclicG_parents
      show alBfs cyclicG n
        (rest ++ (cyclicG.parents p).map (fun q => (q, line ++ [q])))
        (acc ++ [(p, line)]) = none
      apply ih
      · rw [hpar]
        intro hcontra
        simpa using congrArg List.length hcontra
      · intro x hx
        rcases List.mem_append.mp hx with hx | hx
        · exact hall x (List.mem_cons_of_mem _ hx)
        · rw [hpar] at hx
          simp only [List.map_cons, List.map_nil, List.mem_singleton] at hx
          rw [hx]

theorem mem_find_roots (g : Graph) (S : Finset PId) (a : PId) :
    a ∈ find_roots g S ↔ a ∈ S ∧ ∀ q ∈ g.parents a, q ∉ S := by
  simp only [find_roots, Finset.mem_filter, and_congr_right_iff]
  intro _
  rw [Finset.eq_empty_iff_forall_not_mem]
  constructor
  · intro h q hq hqS
    exact h q (Finset.mem_inter.mpr ⟨List.mem_toFinset.mpr hq, hqS⟩)
  · intro h q hq
    rcases Finset.mem_inter.mp hq with ⟨hql, hqS⟩
    exact h q (List.mem_toFinset.mp hql) hqS

/-- The pair emitted for the MRCAs of `A` and `B` in the diamond graph. -/
def dRelAB : Multiset (List (List PId) × List (List PId)) :=
  (find_relationship diamondG 9 (some "@A@") (some "@B@")).getD 0

/-- The top-level records of the diamond input. -/
def diamondRecs : List Record := (lex diamondLines).getD []

/-- The ancestor closure of `D` in the diamond graph. -/
def dAncD : Finset PId := (get_ancestors diamondG 9 (some "@D@")).getD ∅

/-! ### The claims -/

/-- C1: for every graph, whenever the ancestor-line BFS completes,
`get_ancestor_lines(p)` maps each ancestor `a` to the lines that are
exactly the directed parent-paths from `p` to `a` (no visited-set pruning
collapses paths); in particular, in the diamond where `D`'s parents `A`
and `B` share the single parent `X`, the entry for `X` holds exactly the
two distinct paths, through `A` and through `B`. -/
theorem get_ancestor_lines_enumerates_all_lines :
    (∀ (g : Graph) (n : Nat) (p : PId) (pops : List (PId × List PId)),
        get_ancestor_lines g n p = some pops →
        ∀ a l, l ∈ linesOf pops a ↔ isAncestorPath g p a l) ∧
    get_ancestor_lines diamondG 9 (some "@D@") = some diamondPops ∧
    linesOf diamondPops (some "@X@") =
      [[some "@D@", some "@A@", some "@X@"],
       [some "@D@", some "@B@", some "@X@"]] := by
  refine ⟨?_, by rfl, by rfl⟩
  intro g n p pops h a l
  rw [mem_linesOf, get_ancestor_lines_mem g n p pops h a l]

theorem get_ancestor_lines_enumerates_all_lines_witness :
    isAncestorPath diamondG (some "@D@") (some "@X@")
      [some "@D@", some "@A@", some "@X@"] :=
  (get_ancestor_lines_enumerates_all_lines.1 diamondG 9 (some "@D@") diamondPops
    (by rfl) (some "@X@") [some "@D@", some "@A@", some "@X@"]).mp (by decide)

/-- C2: lexing `"0 @I1@ INDI"` and `"1 NAME John /Doe/"` and building the
graph yields exactly one person, with identifier `@I1@` and display name
`"John Doe"` (slash delimiters stripped). -/
theorem lex_parse_roundtrip :
    c2graph.map (fun g => (g.people.map Prod.fst,
      g.people.map (fun pr => personName pr.2))) =
    some ([some "@I1@"], [some "John Doe"]) := by rfl

/-- C3: `find_most_recent(S)` is exactly the subset of `S` of persons none
of whose children are also in `S`; consequently no element of the result
has a child in `S`. -/
theorem find_most_recent_spec :
    ∀ (g : Graph) (S : Finset PId) (a : PId),
      (a ∈ find_most_recent g S ↔ a ∈ S ∧ ∀ c ∈ g.children a, c ∉ S) ∧
      (a ∈ find_most_recent g S → ∀ c ∈ g.children a, c ∉ S) := by
  intro g S a
  refine ⟨mem_find_most_recent g S a, ?_⟩
  intro h
  exact ((mem_find_most_recent g S a).mp h).2

theorem find_most_recent_spec_witness :
    (some "@X@") ∈ find_most_recent diamondG {some "@X@"} :=
  ((find_most_recent_spec diamondG {some "@X@"} (some "@X@")).1).mpr
    ⟨by decide, by decide⟩

/-- C4 (documents the divergence of the code from the claim): on the input
making `@I1@` its own parent, none of the three traversals ever completes,
for any amount of fuel — the source has no recursion-depth or
visited-count guard at all, so it recurses (`get_ancestors`,
`get_descendants`) or loops with an ever-growing queue
(`get_ancestor_lines`) instead of failing with a detected error. -/
theorem cyclic_traversals_never_terminate :
    (∀ n, get_ancestors cyclicG n (some "@I1@") = none) ∧
    (∀ n, get_descendants cyclicG n (some "@I1@") = none) ∧
    (∀ n, get_ancestor_lines cyclicG n (some "@I1@") = none) := by
  refine ⟨get_ancestors_cyclic_none, get_descendants_cyclic_none, ?_⟩
  intro n
  show alBfs cyclicG n [(some "@I1@", [some "@I1@"])] [] = none
  apply alBfs_cyclic_none
  · intro h
    exact List.noConfusion h
  · intro x hx
    rcases List.mem_singleton.mp hx with rfl
    rfl

/-- C5: `GetFields` on a non-empty tag path returns the payload of the
record reached by descending the path, and an explicit absent value
(`none`, not an error) whenever a segment of the path is unmatched; the
callers `birthdate` and `deathdate` receive that value unchanged. -/
theorem GetFields_absent_spec :
    ∀ (r : Record) (f : String) (fs : List String),
      Record.GetFields r (f :: fs) = (pathDescend r (f :: fs)).map Record.data ∧
      birthdate r = (pathDescend r ["BIRT", "DATE"]).map Record.data ∧
      deathdate r = (pathDescend r ["DEAT", "DATE"]).map Record.data := by
  intro r f fs
  exact ⟨GetFields_eq_pathDescend r f fs,
    GetFields_eq_pathDescend r "BIRT" ["DATE"],
    GetFields_eq_pathDescend r "DEAT" ["DATE"]⟩

/-- C6: `find_relationship` is symmetric: swapping the two query persons
yields the same MRCA set, and the emitted pairs are equal up to swapping
the two components of each pair. -/
theorem find_relationship_symmetric :
    ∀ (g : Graph) (n : Nat) (p1 p2 : PId)
      (r : Multiset (List (List PId) × List (List PId))),
      find_relationship g n p1 p2 = some r →
      find_relationship g n p2 p1 = some (r.map Prod.swap) ∧
      find_relationship_mrcas g n p2 p1 = find_relationship_mrcas g n p1 p2 := by
  intro g n p1 p2 r h
  simp only [find_relationship, find_relationship_mrcas] at h ⊢
  cases h1 : get_ancestor_lines g n p1 with
  | none => rw [h1] at h; exact Option.noConfusion h
  | some pops1 =>
    rw [h1] at h
    cases h2 : get_ancestor_lines g n p2 with
    | none => rw [h2] at h; exact Option.noConfusion h
    | some pops2 =>
      rw [h2] at h
      have hr : (find_most_recent g (ancKeys pops1 ∩ ancKeys pops2)).val.map
          (fun anc => (linesOf pops1 anc, linesOf pops2 anc)) = r :=
        Option.some.inj h
      constructor
      · show some ((find_most_recent g (ancKeys pops2 ∩ ancKeys pops1)).val.map
            (fun anc => (linesOf pops2 anc, linesOf pops1 anc))) =
          some (Multiset.map Prod.swap r)
        rw [Finset.inter_comm (ancKeys pops2) (ancKeys pops1), ← hr,
          Multiset.map_map]
        rfl
      · show some (find_most_recent g (ancKeys pops2 ∩ ancKeys pops1)) =
          some (find_most_recent g (ancKeys pops1 ∩ ancKeys pops2))
        rw [Finset.inter_comm (ancKeys pops2) (ancKeys pops1)]

theorem find_relationship_symmetric_witness :
    find_relationship diamondG 9 (some "@B@") (some "@A@") =
      some (dRelAB.map Prod.swap) ∧
    find_relationship_mrcas diamondG 9 (some "@B@") (some "@A@") =
      find_relationship_mrcas diamondG 9 (some "@A@") (some "@B@") :=
  find_relationship_symmetric diamondG 9 (some "@A@") (some "@B@") dRelAB (by rfl)

/-- C7: `find_roots(S)` is exactly the set of members of `S` whose parents
list does not meet `S`; in particular it is empty when every member of `S`
has a parent in `S`. -/
theorem find_roots_spec :
    ∀ (g : Graph) (S : Finset PId),
      (∀ a, a ∈ find_roots g S ↔ a ∈ S ∧ ∀ q ∈ g.parents a, q ∉ S) ∧
      ((∀ p ∈ S, ∃ q ∈ g.parents p, q ∈ S) → find_roots g S = ∅) := by
  intro g S
  refine ⟨mem_find_roots g S, ?_⟩
  intro h
  rw [Finset.eq_empty_iff_forall_not_mem]
  intro a ha
  rcases (mem_find_roots g S a).mp ha with ⟨haS, hnone⟩
  rcases h a haS with ⟨q, hq, hqS⟩
  exact hnone q hq hqS

theorem find_roots_spec_witness :
    find_roots cyclicG {some "@I1@"} = ∅ :=
  (find_roots_spec cyclicG {some "@I1@"}).2 (by decide)

/-- C8: `lex` fails (with a malformed-input error, producing no records)
exactly when the input violates the lexer line contract; in particular it
fails whenever a non-blank line has fewer than two tokens, and on
well-formed input it returns the record list. -/
theorem lex_failure_spec :
    ∀ lines : List String,
      ((lex lines).isSome = wellFormedB lines) ∧
      ((∃ l ∈ lines, tokens l ≠ [] ∧ (tokens l).length < 2) → lex lines = none) ∧
      (wellFormedB lines = true → ∃ recs, lex lines = some recs) := by
  intro lines
  refine ⟨lex_isSome lines, ?_, ?_⟩
  · intro h
    have hwf : wellFormedB lines = false := wfGo_false_of_short lines 0 h
    have hs := lex_isSome lines
    rw [hwf] at hs
    cases hl : lex lines with
    | none => rfl
    | some v => rw [hl] at hs; exact Bool.noConfusion hs
  · intro h
    have hs := lex_isSome lines
    rw [h] at hs
    exact Option.isSome_iff_exists.mp hs

theorem lex_failure_spec_witness :
    lex ["0 @I1@ INDI", "NAME"] = none :=
  (lex_failure_spec ["0 @I1@ INDI", "NAME"]).2.1
    ⟨"NAME", by decide, by decide, by decide⟩

/-- C9: after `parse` succeeds, the links are mirrored: `p` is among `c`'s
parents iff `c` is among `p`'s children (for all keys, in particular for
every pair of persons of the returned map). -/
theorem parse_links_mirrored :
    ∀ (records : List Record) (g : Graph),
      parse records = some g →
      ∀ p c, p ∈ g.parents c ↔ c ∈ g.children p :=
  parse_mirror

theorem parse_links_mirrored_witness :
    (some "@A@") ∈ diamondG.parents (some "@D@") ↔
      (some "@D@") ∈ diamondG.children (some "@A@") :=
  parse_links_mirrored diamondRecs diamondG (by rfl) (some "@A@") (some "@D@")

/-- C10: the key set of `get_ancestor_lines(p)` coincides with
`get_ancestors(p)` whenever both complete, and consequently the MRCA set
used by `find_relationship` equals `find_mrca` — the path-based and
set-based MRCA computations agree. -/
theorem relationship_keys_eq_mrca :
    (∀ (g : Graph) (n m : Nat) (p : PId) (pops : List (PId × List PId))
        (s : Finset PId),
        get_ancestor_lines g n p = some pops → get_ancestors g m p = some s →
        ancKeys pops = s) ∧
    (∀ (g : Graph) (n m : Nat) (p1 p2 : PId) (R A : Finset PId),
        find_relationship_mrcas g n p1 p2 = some R →
        find_mrca g m p1 p2 = some A → R = A) := by
  constructor
  · exact fun g n m p pops s hl ha => ancKeys_eq_get_ancestors g n m p pops s hl ha
  · intro g n m p1 p2 R A hR hA
    simp only [find_relationship_mrcas] at hR
    cases h1 : get_ancestor_lines g n p1 with
    | none => rw [h1] at hR; exact Option.noConfusion hR
    | some pops1 =>
      rw [h1] at hR
      cases h2 : get_ancestor_lines g n p2 with
      | none => rw [h2] at hR; exact Option.noConfusion hR
      | some pops2 =>
        rw [h2] at hR
        simp only [find_mrca, find_common_ancestors] at hA
        cases ha1 : get_ancestors g m p1 with
        | none => rw [ha1] at hA; exact Option.noConfusion hA
        | some a1 =>
          rw [ha1] at hA
          cases ha2 : get_ancestors g m p2 with
          | none => rw [ha2] at hA; exact Option.noConfusion hA
          | some a2 =>
            rw [ha2] at hA
            have hA' : find_most_recent g (a1 ∩ a2) = A := Option.some.inj hA
            have hR' : find_most_recent g (ancKeys pops1 ∩ ancKeys pops2) = R :=
              Option.some.inj hR
            rw [← hA', ← hR',
              ancKeys_eq_get_ancestors g n m p1 pops1 a1 h1 ha1,
              ancKeys_eq_get_ancestors g n m p2 pops2 a2 h2 ha2]

theorem relationship_keys_eq_mrca_witness :
    ancKeys diamondPops = dAncD :=
  relationship_keys_eq_mrca.1 diamondG 9 9 (some "@D@") diamondPops dAncD
    (by rfl) (by rfl)
